import Mathlib

/-!
# DTSSDK client (`dtssdk/client.go`): stream decoder, correlation table, connection lifecycle

A shallow embedding of the functions of `client.go`:

* `unpack` and the read loop of `clientHandle` (the stream decoder);
* `waitPack`, `deleteWaitPackFunc` and one tick of `waitPackTimeout` (the correlation table);
* `connect`, `Send`, `Close` and the control flow of `reconnect` (the connection manager).

Go `int`/`int64` values are modelled by `Int`.  In `unpack` the sum `pkgSize + 5` is only
formed after `pkgSize ≤ len(buf) - 5` has been checked, so it cannot overflow; the timeout
subtraction wraps explicitly (`wrapInt64`).  Run-time panics and loops that do not finish are
explicit results (`Outcome.fault`).  Goroutines started with `go` are recorded as events in
the state that started them; their interleaving is not modelled.
-/

namespace DTSSDK

/-! ## Results of running code -/

/-- Ways in which a call does not return normally. -/
inductive Fault where
  /-- Slice bounds out of range (run-time panic). -/
  | sliceBounds
  /-- The fuel of a fuelled loop ran out before the loop ended. -/
  | outOfFuel
  /-- Method call through a nil `*net.TCPConn` (run-time panic). -/
  | nilDeref
  /-- Send on a closed channel (run-time panic). -/
  | sendOnClosedChannel
  /-- Send on an unbuffered channel that no other task receives from: the call never returns. -/
  | blockedForever
deriving DecidableEq, Repr

/-- Result of running a piece of code: a value, or a fault. -/
inductive Outcome (α : Type) where
  | ok (a : α)
  | fault (f : Fault)
deriving DecidableEq, Repr

/-- Sequencing of two fallible computations. -/
def Outcome.bind {α β : Type} (x : Outcome α) (f : α → Outcome β) : Outcome β :=
  match x with
  | .ok a => f a
  | .fault e => .fault e

/-! ## Stream decoder: `unpack` and the read loop of `clientHandle` -/

/-- One byte of the stream. -/
abbrev Byte := Fin 256

/-- One call `d.tcpHandle(model.MsgID(cmd), data, conn)` made by `unpack`: the command id
(the value of the command byte) and the byte slice handed over. -/
structure Dispatch where
  msgId : Nat
  data : List Byte
deriving DecidableEq, Repr

/-- The payload of a dispatched frame: what follows its 5-byte header (4 length bytes and the
command byte) in the slice handed to `tcpHandle`. -/
def Dispatch.payload (f : Dispatch) : List Byte :=
  f.data.drop 5

/-- State of the reader task of one connection: the bytes in `cache` (a `bytes.Buffer` that is
only ever written, reset and read through `Bytes()`), and the calls of `tcpHandle` made by
`unpack` so far, oldest first. -/
structure Reader where
  cache : List Byte
  dispatched : List Dispatch
deriving DecidableEq, Repr

/-- The reader state when `clientHandle` enters its read loop: `var cache bytes.Buffer`. -/
def Reader.fresh : Reader :=
  { cache := [], dispatched := [] }

/-- `func (d *DTSSDKClient) unpack(cache *bytes.Buffer, conn net.Conn) bool`.

`ByteToInt2` is `utils.ByteToInt2`, which is not part of the sources at hand: it is a
parameter, any function from the 4 length bytes to a Go `int`.  The result is the returned
boolean with the new reader state, or the panic of `buf[:pkgSize+5]` on a negative bound. -/
def unpack (ByteToInt2 : List Byte → Int) (r : Reader) : Outcome (Bool × Reader) :=
  if r.cache.length < 5 then
    .ok (true, r)
  else
    let buf := r.cache
    let pkgSize := ByteToInt2 (buf.take 4)
    if pkgSize > (buf.length : Int) - 5 then
      .ok (true, r)
    else
      let cmd := buf.getD 4 0
      if pkgSize + 5 < 0 then
        .fault .sliceBounds
      else
        .ok (false,
          { cache := buf.drop (5 + pkgSize).toNat,
            dispatched := r.dispatched ++ [⟨cmd.val, buf.take (pkgSize + 5).toNat⟩] })

/-- The inner loop of `clientHandle`: `for { if d.unpack(&cache, conn) { break } }`, with
`fuel` bounding the number of calls of `unpack`. -/
def decodeLoop (ByteToInt2 : List Byte → Int) : Nat → Reader → Outcome Reader
  | 0, _ => .fault .outOfFuel
  | fuel + 1, r =>
    match unpack ByteToInt2 r with
    | .fault e => .fault e
    | .ok (true, r') => .ok r'
    | .ok (false, r') => decodeLoop ByteToInt2 fuel r'

/-- One round of the read loop of `clientHandle` after a successful `conn.Read`:
`cache.Write(buf[:n])` followed by the inner loop. -/
def readStep (ByteToInt2 : List Byte → Int) (fuel : Nat) (r : Reader) (chunk : List Byte) :
    Outcome Reader :=
  decodeLoop ByteToInt2 fuel { r with cache := r.cache ++ chunk }

/-- The read loop of `clientHandle` over the chunks delivered by the successive successful
reads (the loop ends at the first failed read). -/
def clientHandle (ByteToInt2 : List Byte → Int) (fuel : Nat) :
    List (List Byte) → Reader → Outcome Reader
  | [], r => .ok r
  | chunk :: rest, r =>
    (readStep ByteToInt2 fuel r chunk).bind (clientHandle ByteToInt2 fuel rest)

/-- Modelled from the spec: `utils.ByteToInt2` is missing from the sources; the spec reads the
length prefix `[0x02,0,0,0]` as 2, a little-endian unsigned integer.  Used for concrete
inputs only; the general statements hold for every `ByteToInt2`. -/
def leByteToInt2 (b : List Byte) : Int :=
  b.foldr (fun x acc => (x.val : Int) + 256 * acc) 0

/-! ## Correlation table: `waitPack`, `deleteWaitPackFunc`, `waitPackTimeout` -/

/-- Identity of a callback, the pointer `*func(model.MsgID, []byte, net.Conn, error)`. -/
abbrev Token := Nat

/-- `type WaitPackStr struct { Key model.MsgID; Timeout int64; Call *func(...) }`. -/
structure WaitPackStr where
  Key : Nat
  Timeout : Int
  Call : Token
deriving DecidableEq, Repr

/-- One call `go (*v.Call)(0, nil, nil, errors.New(err))`: the callback invoked and the text
of the error it is given. -/
structure Invocation where
  call : Token
  err : String
deriving DecidableEq, Repr

/-- The correlation table `d.waitPackList` (a `sync.Map`, here the list of its key/value
pairs) together with the callback invocations made so far, oldest first. -/
structure WaitTable where
  waitPackList : List (Token × WaitPackStr)
  invoked : List Invocation
deriving DecidableEq, Repr

/-- Wrap-around of `int64` arithmetic. -/
def wrapInt64 (x : Int) : Int :=
  (x + 2 ^ 63) % 2 ^ 64 - 2 ^ 63

/-- `sync.Map.Load`. -/
def syncLoad (key : Token) (m : List (Token × WaitPackStr)) : Option WaitPackStr :=
  (m.find? (fun p => p.1 == key)).map Prod.snd

/-- `sync.Map.Delete`. -/
def syncDelete (key : Token) (m : List (Token × WaitPackStr)) : List (Token × WaitPackStr) :=
  m.filter (fun p => p.1 != key)

/-- `sync.Map.Store`. -/
def syncStore (key : Token) (v : WaitPackStr) (m : List (Token × WaitPackStr)) :
    List (Token × WaitPackStr) :=
  (key, v) :: syncDelete key m

/-- `func (d *DTSSDKClient) waitPack(msgId model.MsgID, call *func(...))`. -/
def waitPack (msgId : Nat) (call : Token) (t : WaitTable) : WaitTable :=
  { t with waitPackList :=
      syncStore call { Key := msgId, Timeout := 10000, Call := call } t.waitPackList }

/-- `func (d *DTSSDKClient) deleteWaitPackFunc(call *func(...))`. -/
def deleteWaitPackFunc (call : Token) (t : WaitTable) : WaitTable :=
  match syncLoad call t.waitPackList with
  | some v =>
    { waitPackList := syncDelete call t.waitPackList,
      invoked := t.invoked ++ [⟨v.Call, "cancel callback"⟩] }
  | none => t

/-- The `Range` of one tick of `waitPackTimeout` over the entries of the table: every entry has
its `Timeout` lowered by 500; an entry that reaches `≤ 0` has its callback invoked and is
deleted (a key occurs once in the map, so `Delete(key)` removes the entry visited).  Returns
the entries that stay and the invocations made. -/
def rangeTimeout :
    List (Token × WaitPackStr) → List (Token × WaitPackStr) × List Invocation
  | [] => ([], [])
  | (key, v) :: rest =>
    let v' : WaitPackStr := { v with Timeout := wrapInt64 (v.Timeout - 500) }
    let out := rangeTimeout rest
    if v'.Timeout ≤ 0 then
      (out.1, ⟨v'.Call, "callback timeout"⟩ :: out.2)
    else
      ((key, v') :: out.1, out.2)

/-- One tick of `waitPackTimeout` (the case `<-d.waitPackTimeoutTicker.C`). -/
def waitPackTimeoutTick (t : WaitTable) : WaitTable :=
  { waitPackList := (rangeTimeout t.waitPackList).1,
    invoked := t.invoked ++ (rangeTimeout t.waitPackList).2 }

/-- The operations on the correlation table that this file contains. -/
inductive TableOp where
  | tick
  | waitPack (msgId : Nat) (call : Token)
  | deleteWaitPackFunc (call : Token)
deriving DecidableEq, Repr

/-- Effect of one table operation. -/
def TableOp.apply : TableOp → WaitTable → WaitTable
  | .tick, t => waitPackTimeoutTick t
  | .waitPack msgId call, t => DTSSDK.waitPack msgId call t
  | .deleteWaitPackFunc call, t => DTSSDK.deleteWaitPackFunc call t

/-- Effect of a sequence of table operations, executed one after the other. -/
def runOps : List TableOp → WaitTable → WaitTable
  | [], t => t
  | op :: ops, t => runOps ops (op.apply t)

/-- Number of sweep ticks in a sequence of operations. -/
def tickCount : List TableOp → Nat
  | [] => 0
  | .tick :: ops => tickCount ops + 1
  | _ :: ops => tickCount ops

/-- Whether the operation registers the token `k` (a `waitPack` with this callback). -/
def TableOp.registers (k : Token) : TableOp → Bool
  | .waitPack _ call => call == k
  | _ => false

/-- Whether the operation cancels the token `k` (a `deleteWaitPackFunc` of this callback). -/
def TableOp.cancels (k : Token) : TableOp → Bool
  | .deleteWaitPackFunc call => call == k
  | _ => false

/-- The invocations of the callback `k` recorded in the table state. -/
def invocationsOf (k : Token) (t : WaitTable) : List Invocation :=
  t.invoked.filter (fun i => i.call == k)

/-- Every entry is stored under its own callback pointer, as `waitPack` stores it. -/
def WellKeyed (m : List (Token × WaitPackStr)) : Prop :=
  ∀ p ∈ m, p.2.Call = p.1


/-- The entries of the table stored under the key `k`. -/
def entriesOf (k : Token) (m : List (Token × WaitPackStr)) : List (Token × WaitPackStr) :=
  m.filter (fun p => p.1 == k)

/-- State of the entry registered for `k` by `waitPack msgId k` after `n` sweep ticks, as the
sweep leaves it: present with `10000 - 500 * n` milliseconds left and no new invocation while
`n < 20`; absent, with one timeout invocation added to the earlier ones `c0`, from then on. -/
def PendingAfter (msgId : Nat) (k : Token) (c0 : List Invocation) (n : Nat) (t : WaitTable) :
    Prop :=
  WellKeyed t.waitPackList ∧
  (n < 20 →
    entriesOf k t.waitPackList = [(k, ⟨msgId, 10000 - 500 * (n : Int), k⟩)] ∧
    invocationsOf k t = c0) ∧
  (20 ≤ n →
    entriesOf k t.waitPackList = [] ∧
    invocationsOf k t = c0 ++ [⟨k, "callback timeout"⟩])

instance (m : List (Token × WaitPackStr)) : Decidable (WellKeyed m) := by
  unfold WellKeyed
  infer_instance

/-! ## Connection manager: `connect`, `Send`, `Close`, `reconnect` -/

/-- Identity of a socket (a `*net.TCPConn`). -/
abbrev Conn := Nat

/-- What `net.DialTimeout` followed by the type assertion `conn.(*net.TCPConn)` yields. -/
inductive DialResult where
  /-- The dial returned an error. -/
  | failed
  /-- The dial succeeded with a connection that is not a `*net.TCPConn`. -/
  | notTCP (conn : Conn)
  /-- The dial succeeded with a TCP connection. -/
  | tcp (conn : Conn)
deriving DecidableEq, Repr

/-- The fields of `DTSSDKClient` that `connect`, `Send` and `Close` read or write, and the
effects they have on the outside, each recorded oldest first: `sess` is `none` for a nil
handle; `timeoutAction` tells whether that callback is set; a ticker is stopped or not and a
stop channel closed or not; `dials` counts the calls of `net.DialTimeout`, `readers` lists the
sockets whose reader task (`go d.clientHandle(tcpConn)`) is running, `writes` the `Write`
calls on a socket and `closedSocks` the `Close` calls on a socket. -/
structure Client where
  sess : Option Conn
  connected : Bool
  timeoutAction : Bool
  reconnectTickerStopped : Bool
  reconnectTickerOverClosed : Bool
  heartBeatTickerStopped : Bool
  heartBeatTickerOverClosed : Bool
  waitPackTimeoutTickerStopped : Bool
  waitPackTimeoutOverClosed : Bool
  dials : Nat
  timeoutActionCalls : Nat
  readers : List Conn
  writes : List (Conn × List Byte)
  closedSocks : List Conn
deriving DecidableEq, Repr

/-- The client as `NewDTSClient` builds it: no socket, not connected, tickers running, stop
channels open. -/
def NewDTSClient : Client :=
  { sess := none, connected := false, timeoutAction := false,
    reconnectTickerStopped := false, reconnectTickerOverClosed := false,
    heartBeatTickerStopped := false, heartBeatTickerOverClosed := false,
    waitPackTimeoutTickerStopped := false, waitPackTimeoutOverClosed := false,
    dials := 0, timeoutActionCalls := 0, readers := [], writes := [], closedSocks := [] }

/-- The two failure branches of `connect`:
`if d.timeoutAction != nil { d.timeoutAction(d.addr) }`. -/
def callTimeoutAction (d : Client) : Client :=
  if d.timeoutAction then { d with timeoutActionCalls := d.timeoutActionCalls + 1 } else d

/-- The two synthetic message ids that the reader task hands to `tcpHandle`:
`model.MsgID_ConnectID` when it starts and `model.MsgID_DisconnectID` when it ends. -/
inductive LinkEvent where
  | ConnectID
  | DisconnectID
deriving DecidableEq, Repr

/-- Modelled from the spec: `tcpHandle` is missing from the sources, and no statement of
`client.go` sets `d.connected` to true or clears it when a connection ends.  The spec has the
connected flag set when a connection is made (`sets connected=true`) and cleared when it ends
(`clears connected state`), and has the reader task announce both to the dispatch router as
the Connected and the Disconnected event.  The model of `tcpHandle` sets the flag on the
first event, clears it on the second and touches nothing else. -/
def specTcpHandle (msgId : LinkEvent) (_conn : Conn) (d : Client) : Client :=
  match msgId with
  | .ConnectID => { d with connected := true }
  | .DisconnectID => { d with connected := false }

/-- The reader task `clientHandle` up to its read loop:
`d.tcpHandle(model.MsgID_ConnectID, nil, conn)`.  `tcpHandle` is a parameter. -/
def clientHandleEnter (tcpHandle : LinkEvent → Conn → Client → Client) (conn : Conn)
    (d : Client) : Client :=
  tcpHandle .ConnectID conn d

/-- The deferred function of `clientHandle`, run when the read loop ends on a read error:
`d.tcpHandle(model.MsgID_DisconnectID, nil, conn); _ = conn.Close()` (`conn` is never nil
here).  The reader task of `conn` is over afterwards. -/
def clientHandleDefer (tcpHandle : LinkEvent → Conn → Client → Client) (conn : Conn)
    (d : Client) : Client :=
  let d1 := tcpHandle .DisconnectID conn d
  { d1 with closedSocks := d1.closedSocks ++ [conn], readers := d1.readers.erase conn }

/-- `func (d *DTSSDKClient) connect()`; `dial` is the result of the dial, were it made, and
`tcpHandle` a parameter.  The reader task started by `go d.clientHandle(tcpConn)` is taken to
run up to its read loop at once, so its Connected event is part of the effect.  The calls
`SetWriteBuffer(5000)` and `SetReadBuffer(5000)` have no effect on the state modelled. -/
def connect (tcpHandle : LinkEvent → Conn → Client → Client) (dial : DialResult)
    (d : Client) : Client :=
  if d.connected then
    d
  else
    let d1 : Client := { d with dials := d.dials + 1 }
    match dial with
    | .failed => callTimeoutAction d1
    | .notTCP _ => callTimeoutAction d1
    | .tcp tcpConn =>
      clientHandleEnter tcpHandle tcpConn
        { d1 with sess := some tcpConn, readers := d1.readers ++ [tcpConn] }

/-- `func (d *DTSSDKClient) Send(msgObj interface{}) error`, returning the error (`none` for
nil) and the new client state.  `Encode` is `codec.Encode`, which is not part of the sources
at hand: it is a parameter.  `writeErr` is the error the socket returns from `Write`. -/
def Send {μ : Type} (Encode : μ → Except String (List Byte)) (writeErr : Option String)
    (d : Client) (msgObj : μ) : Outcome (Option String × Client) :=
  match Encode msgObj with
  | .error err => .ok (some err, d)
  | .ok b =>
    if !d.connected then
      .ok (some "client not connected", d)
    else
      match d.sess with
      | none => .fault .nilDeref
      | some sess => .ok (writeErr, { d with writes := d.writes ++ [(sess, b)] })

/-- Who calls `Close()`: a task of the user of the client, or the task `reconnect`
(line 114). -/
inductive Caller where
  | user
  | reconnectTask
deriving DecidableEq, Repr

/-- `func (d *DTSSDKClient) Close()`; `tcpHandle` is a parameter.  Each stop channel is sent a
value and then closed.  The send panics when the channel has been closed before (a second
`Close`).  The stop channel of `reconnect` is unbuffered and received from by that task
only, so the send never returns when the caller is that task.  Closing the socket makes the
`conn.Read` of its reader task fail: when that task is still running, it is taken to run its
deferred function at once. -/
def Close (tcpHandle : LinkEvent → Conn → Client → Client) (caller : Caller) (d : Client) :
    Outcome Client :=
  if d.reconnectTickerOverClosed then
    .fault .sendOnClosedChannel
  else if caller = .reconnectTask then
    .fault .blockedForever
  else if d.heartBeatTickerOverClosed then
    .fault .sendOnClosedChannel
  else if d.waitPackTimeoutOverClosed then
    .fault .sendOnClosedChannel
  else
    let d1 : Client := { d with
      reconnectTickerStopped := true, reconnectTickerOverClosed := true,
      heartBeatTickerStopped := true, heartBeatTickerOverClosed := true,
      waitPackTimeoutTickerStopped := true, waitPackTimeoutOverClosed := true }
    match d.sess with
    | none => .ok { d1 with sess := none }
    | some sess =>
      let d2 : Client := { d1 with closedSocks := d1.closedSocks ++ [sess], sess := none }
      if sess ∈ d2.readers then
        .ok (clientHandleDefer tcpHandle sess d2)
      else
        .ok d2

/-- The connected flag is only set while the reader task of the current socket is running:
the flag is set by the Connected event of a reader task that `connect` starts on the socket
it has just stored, and cleared by the Disconnected event with which a reader task ends. -/
def FlagHasReader (d : Client) : Prop :=
  d.connected = true → ∃ sess ∈ d.readers, d.sess = some sess

instance (d : Client) : Decidable (FlagHasReader d) := by
  unfold FlagHasReader
  infer_instance

/-- Modelled from the spec: `codec.Encode` is missing from the sources; the spec gives it as
`encode(typed_message) -> bytes, error` and names the failure `EncodeFailure` (the codec
rejected a message).  A codec over optional byte strings that rejects the absent one and
returns a present one as it is; used for concrete inputs only. -/
def sampleEncode : Option (List Byte) → Except String (List Byte)
  | none => .error "encode failure"
  | some bytes => .ok bytes

/-- A call made by the reconnect task. -/
inductive ReconnectCall where
  | connect
  | Close
deriving DecidableEq, Repr

/-- State of the task `reconnect`: its local `count`, the calls of `d.connect()` and
`d.Close()` it has made, oldest first, and whether it has stopped handling ticks. -/
structure ReconnectTask where
  count : Int
  calls : List ReconnectCall
  stopped : Bool
deriving DecidableEq, Repr

/-- The task `reconnect` up to its loop: `d.connected = false; d.connect(); count := 0`. -/
def reconnectStart : ReconnectTask :=
  { count := 0, calls := [.connect], stopped := false }

/-- One tick of `reconnect` (the case `<-d.reconnectTicker.C`); `connected` is the value of
`d.connected` read at this tick.  `Close()` stops the ticker and signals the stop channel of
the task, so the task handles no tick after calling it. -/
def reconnectTick (ReconnectTimes : Int) (connected : Bool) (s : ReconnectTask) :
    ReconnectTask :=
  if s.stopped then
    s
  else if !connected then
    let count := s.count + 1
    if ReconnectTimes == 0 then
      { s with count := count, calls := s.calls ++ [.connect] }
    else if count < ReconnectTimes then
      { s with count := count, calls := s.calls ++ [.connect] }
    else
      { count := count, calls := s.calls ++ [.Close], stopped := true }
  else
    s

/-- The task `reconnect` over successive ticks, given the value of `d.connected` read at
each. -/
def reconnectRun (ReconnectTimes : Int) : List Bool → ReconnectTask → ReconnectTask
  | [], s => s
  | connected :: rest, s =>
    reconnectRun ReconnectTimes rest (reconnectTick ReconnectTimes connected s)

/-! ## Theorems: stream decoder -/

theorem unpack_stop (B : List Byte → Int) (r : Reader)
    (h : r.cache.length < 5 ∨ B (r.cache.take 4) > (r.cache.length : Int) - 5) :
    unpack B r = .ok (true, r) := by
  unfold unpack
  rcases h with h | h
  · simp [h]
  · by_cases h5 : r.cache.length < 5
    · simp [h5]
    · simp [h5, h]

theorem unpack_frame (B : List Byte → Int) (r : Reader)
    (h5 : 5 ≤ r.cache.length) (hle : B (r.cache.take 4) ≤ (r.cache.length : Int) - 5)
    (hnn : 0 ≤ B (r.cache.take 4) + 5) :
    unpack B r = .ok (false,
      { cache := r.cache.drop (B (r.cache.take 4) + 5).toNat,
        dispatched := r.dispatched ++
          [⟨(r.cache.getD 4 0).val, r.cache.take (B (r.cache.take 4) + 5).toNat⟩] }) := by
  unfold unpack
  have h1 : ¬ r.cache.length < 5 := by omega
  have h2 : ¬ B (r.cache.take 4) > (r.cache.length : Int) - 5 := by omega
  have h3 : ¬ B (r.cache.take 4) + 5 < 0 := by omega
  simp only [h1, h2, h3, if_false]
  rw [add_comm 5]

theorem unpack_fault (B : List Byte → Int) (r : Reader)
    (h5 : 5 ≤ r.cache.length) (hle : B (r.cache.take 4) ≤ (r.cache.length : Int) - 5)
    (hneg : B (r.cache.take 4) + 5 < 0) :
    unpack B r = .fault .sliceBounds := by
  unfold unpack
  have h1 : ¬ r.cache.length < 5 := by omega
  have h2 : ¬ B (r.cache.take 4) > (r.cache.length : Int) - 5 := by omega
  simp only [h1, h2, hneg, if_false, if_true]

/-- The three ways a call of `unpack` can go. -/
theorem unpack_cases (B : List Byte → Int) (r : Reader) :
    (unpack B r = .ok (true, r) ∧
      (r.cache.length < 5 ∨ B (r.cache.take 4) > (r.cache.length : Int) - 5)) ∨
    (unpack B r = .fault .sliceBounds ∧ 5 ≤ r.cache.length ∧
      B (r.cache.take 4) ≤ (r.cache.length : Int) - 5 ∧ B (r.cache.take 4) + 5 < 0) ∨
    (unpack B r = .ok (false,
        { cache := r.cache.drop (B (r.cache.take 4) + 5).toNat,
          dispatched := r.dispatched ++
            [⟨(r.cache.getD 4 0).val, r.cache.take (B (r.cache.take 4) + 5).toNat⟩] }) ∧
      5 ≤ r.cache.length ∧ B (r.cache.take 4) ≤ (r.cache.length : Int) - 5 ∧
      0 ≤ B (r.cache.take 4) + 5) := by
  by_cases h5 : r.cache.length < 5
  · exact Or.inl ⟨unpack_stop B r (Or.inl h5), Or.inl h5⟩
  · by_cases hgt : B (r.cache.take 4) > (r.cache.length : Int) - 5
    · exact Or.inl ⟨unpack_stop B r (Or.inr hgt), Or.inr hgt⟩
    · by_cases hneg : B (r.cache.take 4) + 5 < 0
      · exact Or.inr (Or.inl ⟨unpack_fault B r (by omega) (by omega) hneg,
          by omega, by omega, hneg⟩)
      · exact Or.inr (Or.inr ⟨unpack_frame B r (by omega) (by omega) (by omega),
          by omega, by omega, by omega⟩)

theorem decodeLoop_succ_stop (B : List Byte → Int) (fuel : Nat) (r : Reader)
    (h : unpack B r = .ok (true, r)) : decodeLoop B (fuel + 1) r = .ok r := by
  simp [decodeLoop, h]

theorem decodeLoop_succ_fault (B : List Byte → Int) (fuel : Nat) (r : Reader) (e : Fault)
    (h : unpack B r = .fault e) : decodeLoop B (fuel + 1) r = .fault e := by
  simp [decodeLoop, h]

theorem decodeLoop_succ_frame (B : List Byte → Int) (fuel : Nat) (r r' : Reader)
    (h : unpack B r = .ok (false, r')) :
    decodeLoop B (fuel + 1) r = decodeLoop B fuel r' := by
  simp [decodeLoop, h]

/-- A declared length of `-5` makes `unpack` return false without consuming a byte: the loop
never ends, whatever the fuel. -/
theorem decodeLoop_stuck (B : List Byte → Int) (c : List Byte) (h5 : 5 ≤ c.length)
    (hL : B (c.take 4) = -5) (fuel : Nat) (d : List Dispatch) :
    decodeLoop B fuel ⟨c, d⟩ = .fault .outOfFuel := by
  induction fuel generalizing d with
  | zero => rfl
  | succ n ih =>
    have hf := unpack_frame B ⟨c, d⟩ h5 (by simp only [hL]; omega) (by simp only [hL]; omega)
    rw [decodeLoop_succ_frame B n _ _ hf]
    simp only [hL]
    exact ih _

/-- A finished decode pass never leaves more bytes than it found. -/
theorem decodeLoop_length_le (B : List Byte → Int) (fuel : Nat) (r r' : Reader)
    (h : decodeLoop B fuel r = .ok r') : r'.cache.length ≤ r.cache.length := by
  induction fuel generalizing r with
  | zero => simp [decodeLoop] at h
  | succ n ih =>
    rcases unpack_cases B r with ⟨hu, _⟩ | ⟨hu, _⟩ | ⟨hu, _⟩
    · rw [decodeLoop_succ_stop B n r hu] at h
      cases h
      exact le_rfl
    · rw [decodeLoop_succ_fault B n r _ hu] at h
      cases h
    · rw [decodeLoop_succ_frame B n r _ hu] at h
      have := ih _ h
      simp only [List.length_drop] at this
      omega

/-- With more fuel than buffered bytes the outcome of the decode loop does not depend on the
fuel. -/
theorem decodeLoop_fuel_irrelevant (B : List Byte → Int) (f g : Nat) (r : Reader)
    (hf : r.cache.length < f) (hg : r.cache.length < g) :
    decodeLoop B f r = decodeLoop B g r := by
  induction f generalizing g r with
  | zero => omega
  | succ n ih =>
    obtain ⟨m, rfl⟩ : ∃ m, g = m + 1 := ⟨g - 1, by omega⟩
    rcases unpack_cases B r with ⟨hu, _⟩ | ⟨hu, _⟩ | ⟨hu, h5, hle, hnn⟩
    · rw [decodeLoop_succ_stop B n r hu, decodeLoop_succ_stop B m r hu]
    · rw [decodeLoop_succ_fault B n r _ hu, decodeLoop_succ_fault B m r _ hu]
    · rw [decodeLoop_succ_frame B n r _ hu, decodeLoop_succ_frame B m r _ hu]
      by_cases h0 : B (r.cache.take 4) + 5 = 0
      · have hL : B (r.cache.take 4) = -5 := by omega
        simp only [h0, Int.toNat_zero, List.drop_zero]
        rw [decodeLoop_stuck B r.cache h5 hL, decodeLoop_stuck B r.cache h5 hL]
      · apply ih
        · simp only [List.length_drop]; omega
        · simp only [List.length_drop]; omega

/-- A decode pass that finishes ends in a state on which `unpack` stops at once. -/
theorem decodeLoop_stable (B : List Byte → Int) (fuel : Nat) (r r' : Reader)
    (h : decodeLoop B fuel r = .ok r') :
    unpack B r' = .ok (true, r') ∧
      (r'.cache.length < 5 ∨ B (r'.cache.take 4) > (r'.cache.length : Int) - 5) := by
  induction fuel generalizing r with
  | zero => simp [decodeLoop] at h
  | succ n ih =>
    rcases unpack_cases B r with ⟨hu, hc⟩ | ⟨hu, _⟩ | ⟨hu, _⟩
    · rw [decodeLoop_succ_stop B n r hu] at h
      cases h
      exact ⟨hu, hc⟩
    · rw [decodeLoop_succ_fault B n r _ hu] at h
      cases h
    · rw [decodeLoop_succ_frame B n r _ hu] at h
      exact ih _ h

/-- When the declared lengths are never negative, the decode loop ends within as many calls
of `unpack` as there are buffered bytes, plus one. -/
theorem decodeLoop_terminates (B : List Byte → Int) (hB : ∀ bs, 0 ≤ B bs) (fuel : Nat)
    (r : Reader) (hf : r.cache.length < fuel) : ∃ r', decodeLoop B fuel r = .ok r' := by
  induction fuel generalizing r with
  | zero => omega
  | succ n ih =>
    rcases unpack_cases B r with ⟨hu, _⟩ | ⟨_, _, _, hneg⟩ | ⟨hu, h5, hle, hnn⟩
    · exact ⟨r, decodeLoop_succ_stop B n r hu⟩
    · have := hB (r.cache.take 4)
      omega
    · rw [decodeLoop_succ_frame B n r _ hu]
      apply ih
      have := hB (r.cache.take 4)
      simp only [List.length_drop]
      omega

theorem Outcome.bind_congr {α β : Type} (x : Outcome α) (f g : α → Outcome β)
    (h : ∀ a, x = .ok a → f a = g a) : x.bind f = x.bind g := by
  cases x with
  | ok a => exact h a rfl
  | fault e => rfl

theorem Outcome.bind_ok_right {α : Type} (x : Outcome α) : x.bind Outcome.ok = x := by
  cases x <;> rfl

/-- Decoding a buffer followed by further bytes is decoding the buffer first and then going on
with what is left of it followed by the further bytes. -/
theorem decodeLoop_append (B : List Byte → Int) (fuel : Nat) (r : Reader) (more : List Byte)
    (hf : (r.cache ++ more).length < fuel) :
    decodeLoop B fuel ⟨r.cache ++ more, r.dispatched⟩ =
      (decodeLoop B fuel r).bind
        (fun r' => decodeLoop B fuel ⟨r'.cache ++ more, r'.dispatched⟩) := by
  induction fuel generalizing r with
  | zero => omega
  | succ n ih =>
    simp only [List.length_append] at hf
    rcases unpack_cases B r with ⟨hu, _⟩ | ⟨hu, h5, hle, hneg⟩ | ⟨hu, h5, hle, hnn⟩
    · rw [decodeLoop_succ_stop B n r hu]
      rfl
    · have h4 : (r.cache ++ more).take 4 = r.cache.take 4 :=
        List.take_append_of_le_length (by omega)
      have hu2 : unpack B ⟨r.cache ++ more, r.dispatched⟩ = .fault .sliceBounds := by
        apply unpack_fault
        · simp only [List.length_append]; omega
        · simp only [h4, List.length_append]; push_cast; omega
        · simp only [h4]; exact hneg
      rw [decodeLoop_succ_fault B n r _ hu, decodeLoop_succ_fault B n _ _ hu2]
      rfl
    · have h4 : (r.cache ++ more).take 4 = r.cache.take 4 :=
        List.take_append_of_le_length (by omega)
      have hk : (B (r.cache.take 4) + 5).toNat ≤ r.cache.length := by omega
      have hu2 := unpack_frame B ⟨r.cache ++ more, r.dispatched⟩
        (by simp only [List.length_append]; omega)
        (by simp only [h4, List.length_append]; push_cast; omega)
        (by simp only [h4]; exact hnn)
      simp only [h4, List.take_append_of_le_length hk, List.drop_append_of_le_length hk,
        List.getD_append r.cache more 0 4 (by omega)] at hu2
      rw [decodeLoop_succ_frame B n _ _ hu2, decodeLoop_succ_frame B n r _ hu]
      by_cases h0 : B (r.cache.take 4) + 5 = 0
      · have hL : B (r.cache.take 4) = -5 := by omega
        simp only [h0, Int.toNat_zero, List.drop_zero]
        rw [decodeLoop_stuck B (r.cache ++ more) (by simp only [List.length_append]; omega)
          (by rw [h4]; exact hL), decodeLoop_stuck B r.cache h5 hL]
        rfl
      · have hlen : (r.cache.drop (B (r.cache.take 4) + 5).toNat).length + more.length < n := by
          simp only [List.length_drop]; omega
        rw [ih ⟨r.cache.drop (B (r.cache.take 4) + 5).toNat, _⟩
          (by simp only [List.length_append]; exact hlen)]
        apply Outcome.bind_congr
        intro r' hr'
        have hle' := decodeLoop_length_le B n _ r' hr'
        apply decodeLoop_fuel_irrelevant
        · simp only [List.length_append]
          simp only at hle'
          omega
        · simp only [List.length_append]
          simp only at hle'
          omega

/-- Feeding a non-empty list of chunks is one read step on their concatenation. -/
theorem clientHandle_cons (B : List Byte → Int) (fuel : Nat) (chunks : List (List Byte))
    (chunk : List Byte) (r : Reader)
    (hf : r.cache.length + (chunk ++ chunks.flatten).length < fuel) :
    clientHandle B fuel (chunk :: chunks) r = readStep B fuel r (chunk ++ chunks.flatten) := by
  induction chunks generalizing chunk r with
  | nil =>
    simp only [clientHandle, List.flatten_nil, List.append_nil]
    exact Outcome.bind_ok_right _
  | cons c2 cs ih =>
    simp only [List.flatten_cons, List.length_append] at hf
    rw [clientHandle]
    have step : (readStep B fuel r chunk).bind (clientHandle B fuel (c2 :: cs)) =
        (readStep B fuel r chunk).bind
          (fun r1 => decodeLoop B fuel ⟨r1.cache ++ (c2 ++ cs.flatten), r1.dispatched⟩) := by
      apply Outcome.bind_congr
      intro r1 hr1
      have hle := decodeLoop_length_le B fuel _ r1 hr1
      simp only [List.length_append] at hle
      rw [ih c2 r1 (by simp only [List.length_append]; omega)]
      rfl
    rw [step]
    unfold readStep
    have := decodeLoop_append B fuel ⟨r.cache ++ chunk, r.dispatched⟩ (c2 ++ cs.flatten)
      (by simp only [List.length_append]; omega)
    simp only [List.flatten_cons, ← List.append_assoc] at this ⊢
    exact this.symm

/-- When the declared lengths are never negative, the read loop finishes on every list of
chunks, given more fuel than bytes. -/
theorem clientHandle_terminates (B : List Byte → Int) (hB : ∀ bs, 0 ≤ B bs) (fuel : Nat)
    (chunks : List (List Byte)) (r : Reader)
    (hf : r.cache.length + chunks.flatten.length < fuel) :
    ∃ r', clientHandle B fuel chunks r = .ok r' := by
  induction chunks generalizing r with
  | nil => exact ⟨r, rfl⟩
  | cons c cs ih =>
    simp only [List.flatten_cons, List.length_append] at hf
    obtain ⟨r1, h1⟩ := decodeLoop_terminates B hB fuel ⟨r.cache ++ c, r.dispatched⟩
      (by simp only [List.length_append]; omega)
    have hle := decodeLoop_length_le B fuel _ r1 h1
    simp only [List.length_append] at hle
    obtain ⟨r2, h2⟩ := ih r1 (by omega)
    refine ⟨r2, ?_⟩
    rw [clientHandle]
    unfold readStep
    rw [h1]
    exact h2

theorem leByteToInt2_nonneg (bs : List Byte) : 0 ≤ leByteToInt2 bs := by
  unfold leByteToInt2
  induction bs with
  | nil => simp
  | cons b bs ih =>
    simp only [List.foldr_cons]
    have : (0 : Int) ≤ (b.val : Int) := Int.ofNat_nonneg _
    omega

/-- C1. Chunk-boundary independence of the decoder: starting from an empty cache, running the
read loop of `clientHandle` over any cut of a byte stream into consecutive chunks (empty
chunks and the empty list of chunks included) has the same outcome, i.e. the same calls of
`tcpHandle` in the same order and the same bytes left in the cache, as running it on the whole
stream delivered in one chunk.  This holds for every `ByteToInt2` and every fuel above the
stream length; when `ByteToInt2` never returns a negative length the run finishes normally. -/
theorem chunk_boundary_independence (B : List Byte → Int) (chunks : List (List Byte))
    (d0 : List Dispatch) (fuel : Nat) (hfuel : chunks.flatten.length < fuel) :
    clientHandle B fuel chunks ⟨[], d0⟩ = clientHandle B fuel [chunks.flatten] ⟨[], d0⟩ ∧
    ((∀ bs, 0 ≤ B bs) → ∃ r, clientHandle B fuel chunks ⟨[], d0⟩ = .ok r) := by
  refine ⟨?_, fun hB =>
    clientHandle_terminates B hB fuel chunks ⟨[], d0⟩ (by simpa using hfuel)⟩
  cases chunks with
  | nil =>
    obtain ⟨n, rfl⟩ : ∃ n, fuel = n + 1 := ⟨fuel - 1, by omega⟩
    simp only [clientHandle, readStep, List.flatten_nil, List.append_nil]
    rw [decodeLoop_succ_stop B n ⟨[], d0⟩ (unpack_stop B _ (Or.inl (by simp)))]
    rfl
  | cons c cs =>
    simp only [List.flatten_cons] at hfuel
    rw [clientHandle_cons B fuel cs c ⟨[], d0⟩ (by simpa using hfuel),
      clientHandle_cons B fuel [] (c :: cs).flatten ⟨[], d0⟩ (by simpa using hfuel)]
    simp

/-- Witness of C1 on the example of the spec: `[0x02,0,0]` followed by `[0,0x09,0xAB,0xCD]`
gives the same result as the seven bytes in one chunk, namely one dispatched frame with
command 9 and an empty cache. -/
theorem chunk_boundary_independence_witness :
    clientHandle leByteToInt2 8 [[0x02, 0, 0], [0, 0x09, 0xAB, 0xCD]] ⟨[], []⟩ =
      clientHandle leByteToInt2 8 [[0x02, 0, 0, 0, 0x09, 0xAB, 0xCD]] ⟨[], []⟩ ∧
    (∃ r, clientHandle leByteToInt2 8 [[0x02, 0, 0], [0, 0x09, 0xAB, 0xCD]] ⟨[], []⟩ = .ok r) ∧
    clientHandle leByteToInt2 8 [[0x02, 0, 0], [0, 0x09, 0xAB, 0xCD]] ⟨[], []⟩ =
      .ok ⟨[], [⟨9, [0x02, 0, 0, 0, 0x09, 0xAB, 0xCD]⟩]⟩ :=
  ⟨(chunk_boundary_independence leByteToInt2 [[0x02, 0, 0], [0, 0x09, 0xAB, 0xCD]] [] 8
      (by decide)).1,
    (chunk_boundary_independence leByteToInt2 [[0x02, 0, 0], [0, 0x09, 0xAB, 0xCD]] [] 8
      (by decide)).2 leByteToInt2_nonneg,
    by decide⟩

/-- C2. On a buffer of at least 5 bytes whose declared length `L` (the value `ByteToInt2`
reads from the first 4 bytes) satisfies `0 ≤ L ≤ len - 5`, one call of `unpack` returns false
and makes exactly one call of `tcpHandle`: its command id is the byte at offset 4, the slice
handed over is the frame `buf[:5+L]`, whose payload (the bytes after the 5-byte header) is
exactly the bytes at offsets `[5, 5+L)`; the cache is left with exactly the bytes from offset
`5+L` onward. -/
theorem unpack_complete_frame (B : List Byte → Int) (r : Reader) (L : Nat)
    (hL : B (r.cache.take 4) = (L : Int)) (hlen : L + 5 ≤ r.cache.length) :
    ∃ (f : Dispatch) (cmd : Byte),
      unpack B r = .ok (false, ⟨r.cache.drop (5 + L), r.dispatched ++ [f]⟩) ∧
      r.cache[4]? = some cmd ∧ f.msgId = cmd.val ∧
      f.data = r.cache.take (5 + L) ∧
      f.payload = (r.cache.drop 5).take L := by
  have hu := unpack_frame B r (by omega) (by rw [hL]; omega) (by rw [hL]; omega)
  have hk : (B (r.cache.take 4) + 5).toNat = 5 + L := by rw [hL]; omega
  rw [hk] at hu
  refine ⟨⟨(r.cache.getD 4 0).val, r.cache.take (5 + L)⟩, r.cache.getD 4 0, hu, ?_, rfl, rfl,
    ?_⟩
  · rw [List.getD_eq_getElem?_getD]
    have h4 : 4 < r.cache.length := by omega
    simp [List.getElem?_eq_getElem h4]
  · simp [Dispatch.payload, List.drop_take]

/-- Witness of C2 on the example of the spec: on `[0x02,0,0,0,0x09,0xAB,0xCD]`, length read as
2, one frame with command 9 and payload `[0xAB,0xCD]` is dispatched and the cache is empty. -/
theorem unpack_complete_frame_witness :
    ∃ f : Dispatch,
      unpack leByteToInt2 ⟨[0x02, 0, 0, 0, 0x09, 0xAB, 0xCD], []⟩ = .ok (false, ⟨[], [f]⟩) ∧
      f.msgId = 9 ∧
      f.data = [0x02, 0, 0, 0, 0x09, 0xAB, 0xCD] ∧
      f.payload = [0xAB, 0xCD] := by
  obtain ⟨f, cmd, h1, h2, h3, h4, h5⟩ :=
    unpack_complete_frame leByteToInt2 ⟨[0x02, 0, 0, 0, 0x09, 0xAB, 0xCD], []⟩ 2
      (by decide) (by decide)
  refine ⟨f, h1, ?_, h4, h5⟩
  have hc : some cmd = some (9 : Byte) := h2.symm.trans (by decide)
  rw [h3, Option.some.inj hc]
  rfl

/-- Counterexample to C3 as stated: on `[0x02,0,0,0,0x09,0xAB,0xCD]` the declared length is 2
and `unpack` extracts a frame with 2 payload bytes after the command byte, so the length is
not `1 +` the number of payload bytes, and `unpack` removes 7 bytes, not `4 + 2`. -/
theorem length_covers_command_counterexample :
    unpack leByteToInt2 ⟨[0x02, 0, 0, 0, 0x09, 0xAB, 0xCD], []⟩ =
      .ok (false, ⟨[], [⟨9, [0x02, 0, 0, 0, 0x09, 0xAB, 0xCD]⟩]⟩) ∧
    leByteToInt2 [0x02, 0, 0, 0] = 2 ∧
    (Dispatch.payload ⟨9, [0x02, 0, 0, 0, 0x09, 0xAB, 0xCD]⟩).length = 2 ∧
    leByteToInt2 [0x02, 0, 0, 0] ≠
      1 + ((Dispatch.payload ⟨9, [0x02, 0, 0, 0, 0x09, 0xAB, 0xCD]⟩).length : Int) ∧
    (([0x02, 0, 0, 0, 0x09, 0xAB, 0xCD] : List Byte).length : Int) - (([] : List Byte).length : Int)
      ≠ 4 + leByteToInt2 [0x02, 0, 0, 0] := by
  decide

/-- C3, amended. For every frame that `unpack` extracts, the declared length `L` of the 4-byte
prefix counts the payload bytes only: the slice dispatched is the first `5 + L` bytes of the
buffer, `unpack` removes exactly these `5 + L` bytes, and when `L ≥ 0` the number of payload
bytes that follow the command byte is `L` (the command byte is not counted). -/
theorem unpack_length_counts_payload (B : List Byte → Int) (r r' : Reader)
    (h : unpack B r = .ok (false, r')) :
    ∃ f : Dispatch,
      r'.dispatched = r.dispatched ++ [f] ∧
      r.cache = f.data ++ r'.cache ∧
      (f.data.length : Int) = 5 + B (r.cache.take 4) ∧
      (r.cache.length : Int) - (r'.cache.length : Int) = 5 + B (r.cache.take 4) ∧
      (0 ≤ B (r.cache.take 4) → (f.payload.length : Int) = B (r.cache.take 4)) := by
  rcases unpack_cases B r with ⟨hu, _⟩ | ⟨hu, _⟩ | ⟨hu, h5, hle, hnn⟩
  · rw [hu] at h
    simp at h
  · rw [hu] at h
    cases h
  · rw [hu] at h
    injection h with h
    injection h with _ h
    subst h
    refine ⟨_, rfl, (List.take_append_drop _ _).symm, ?_, ?_, ?_⟩
    · simp only [List.length_take]
      omega
    · simp only [List.length_drop]
      omega
    · intro _
      simp only [Dispatch.payload, List.length_drop, List.length_take]
      omega

/-- Witness of the amended C3 on the example of the spec. -/
theorem unpack_length_counts_payload_witness :
    ∃ f : Dispatch,
      [f] = [] ++ [f] ∧
      ([0x02, 0, 0, 0, 0x09, 0xAB, 0xCD] : List Byte) = f.data ++ [] ∧
      (f.data.length : Int) = 5 + leByteToInt2 [0x02, 0, 0, 0] ∧
      (7 : Int) - 0 = 5 + leByteToInt2 [0x02, 0, 0, 0] ∧
      (0 ≤ leByteToInt2 [0x02, 0, 0, 0] →
        (f.payload.length : Int) = leByteToInt2 [0x02, 0, 0, 0]) := by
  obtain ⟨f, h1, h2, h3, h4, h5⟩ :=
    unpack_length_counts_payload leByteToInt2 ⟨[0x02, 0, 0, 0, 0x09, 0xAB, 0xCD], []⟩
      ⟨[], [⟨9, [0x02, 0, 0, 0, 0x09, 0xAB, 0xCD]⟩]⟩ (by decide)
  have hf : f = ⟨9, [0x02, 0, 0, 0, 0x09, 0xAB, 0xCD]⟩ := by
    simpa using h1.symm
  subst hf
  exact ⟨_, rfl, h2, h3, by decide, h5⟩

/-- C4. A decode pass (`unpack` called until it returns true) that finishes leaves in the cache
fewer than 5 bytes, or a frame whose declared length exceeds the buffered length minus 5: no
complete frame is left undispatched, and one more call of `unpack` returns true, dispatches
nothing and leaves the cache unchanged.  When `ByteToInt2` never returns a negative length,
the pass does finish, within one call of `unpack` more than there are buffered bytes. -/
theorem decode_pass_leaves_incomplete (B : List Byte → Int) (r : Reader) (fuel : Nat) :
    (∀ r', decodeLoop B fuel r = .ok r' →
      (r'.cache.length < 5 ∨ B (r'.cache.take 4) > (r'.cache.length : Int) - 5) ∧
      unpack B r' = .ok (true, r')) ∧
    ((∀ bs, 0 ≤ B bs) → r.cache.length < fuel → ∃ r', decodeLoop B fuel r = .ok r') :=
  ⟨fun r' h => ⟨(decodeLoop_stable B fuel r r' h).2, (decodeLoop_stable B fuel r r' h).1⟩,
    fun hB hf => decodeLoop_terminates B hB fuel r hf⟩

/-- Witness of C4: a complete frame followed by three bytes of the next one. -/
theorem decode_pass_leaves_incomplete_witness :
    decodeLoop leByteToInt2 11 ⟨[0x02, 0, 0, 0, 0x09, 0xAB, 0xCD, 0x01, 0, 0], []⟩ =
      .ok ⟨[0x01, 0, 0], [⟨9, [0x02, 0, 0, 0, 0x09, 0xAB, 0xCD]⟩]⟩ ∧
    unpack leByteToInt2 ⟨[0x01, 0, 0], [⟨9, [0x02, 0, 0, 0, 0x09, 0xAB, 0xCD]⟩]⟩ =
      .ok (true, ⟨[0x01, 0, 0], [⟨9, [0x02, 0, 0, 0, 0x09, 0xAB, 0xCD]⟩]⟩) ∧
    (∃ r', decodeLoop leByteToInt2 11
      ⟨[0x02, 0, 0, 0, 0x09, 0xAB, 0xCD, 0x01, 0, 0], []⟩ = .ok r') :=
  ⟨by decide,
    ((decode_pass_leaves_incomplete leByteToInt2
      ⟨[0x02, 0, 0, 0, 0x09, 0xAB, 0xCD, 0x01, 0, 0], []⟩ 11).1 _ (by decide)).2,
    (decode_pass_leaves_incomplete leByteToInt2
      ⟨[0x02, 0, 0, 0, 0x09, 0xAB, 0xCD, 0x01, 0, 0], []⟩ 11).2 leByteToInt2_nonneg (by decide)⟩

/-! ## Theorems: correlation table -/

theorem syncLoad_entriesOf (k : Token) (m : List (Token × WaitPackStr)) :
    syncLoad k m = syncLoad k (entriesOf k m) := by
  unfold syncLoad entriesOf
  induction m with
  | nil => rfl
  | cons p m ih =>
    by_cases h : p.1 == k
    · simp [List.find?_cons, List.filter_cons, h]
    · simp only [List.find?_cons, List.filter_cons, h]
      exact ih

theorem syncLoad_mem (k : Token) (m : List (Token × WaitPackStr)) (v : WaitPackStr)
    (h : syncLoad k m = some v) : (k, v) ∈ m := by
  unfold syncLoad at h
  rcases hf : m.find? (fun p => p.1 == k) with _ | p
  · rw [hf] at h; cases h
  · rw [hf] at h
    have hmem := List.mem_of_find?_eq_some hf
    have hk := List.find?_some hf
    simp only [Option.map_some', Option.some.injEq] at h
    have : p = (k, v) := by
      rcases p with ⟨a, b⟩
      simp only [beq_iff_eq] at hk
      simp only at h
      rw [← hk, ← h]
    rw [← this]
    exact hmem

theorem entriesOf_syncDelete_ne (k k' : Token) (h : k' ≠ k) (m : List (Token × WaitPackStr)) :
    entriesOf k (syncDelete k' m) = entriesOf k m := by
  unfold entriesOf syncDelete
  rw [List.filter_filter]
  apply List.filter_congr
  intro p _
  by_cases hp : p.1 = k
  · simp [hp, Ne.symm h]
  · simp [hp]

theorem entriesOf_syncDelete_self (k : Token) (m : List (Token × WaitPackStr)) :
    entriesOf k (syncDelete k m) = [] := by
  unfold entriesOf syncDelete
  rw [List.filter_filter, List.filter_eq_nil_iff]
  intro p _
  by_cases hp : p.1 = k <;> simp [hp]

theorem wellKeyed_syncDelete (k : Token) (m : List (Token × WaitPackStr)) (h : WellKeyed m) :
    WellKeyed (syncDelete k m) := by
  intro p hp
  exact h p (List.mem_of_mem_filter hp)

theorem wellKeyed_rangeTimeout (m : List (Token × WaitPackStr)) (h : WellKeyed m) :
    WellKeyed (rangeTimeout m).1 := by
  induction m with
  | nil => intro p hp; cases hp
  | cons q m ih =>
    rcases q with ⟨key, v⟩
    have hq : v.Call = key := h (key, v) (List.mem_cons_self _ _)
    have hm : WellKeyed m := fun p hp => h p (List.mem_cons_of_mem _ hp)
    simp only [rangeTimeout]
    split
    · exact ih hm
    · intro p hp
      rcases List.mem_cons.1 hp with rfl | hp
      · exact hq
      · exact ih hm p hp

theorem entriesOf_rangeTimeout (k : Token) (m : List (Token × WaitPackStr)) :
    entriesOf k (rangeTimeout m).1 = (rangeTimeout (entriesOf k m)).1 := by
  induction m with
  | nil => rfl
  | cons q m ih =>
    rcases q with ⟨key, v⟩
    by_cases hk : key == k
    · have e : entriesOf k ((key, v) :: m) = (key, v) :: entriesOf k m := by
        simp [entriesOf, List.filter_cons, hk]
      rw [e]
      simp only [rangeTimeout]
      split
      · exact ih
      · have e2 : ∀ (w : WaitPackStr) (l : List (Token × WaitPackStr)),
            entriesOf k ((key, w) :: l) = (key, w) :: entriesOf k l := by
          intro w l
          simp [entriesOf, List.filter_cons, hk]
        rw [e2, ih]
    · have e : entriesOf k ((key, v) :: m) = entriesOf k m := by
        simp [entriesOf, List.filter_cons, hk]
      rw [e]
      simp only [rangeTimeout]
      split
      · exact ih
      · have e2 : ∀ (w : WaitPackStr) (l : List (Token × WaitPackStr)),
            entriesOf k ((key, w) :: l) = entriesOf k l := by
          intro w l
          simp [entriesOf, List.filter_cons, hk]
        rw [e2, ih]

theorem invoked_rangeTimeout (k : Token) (m : List (Token × WaitPackStr)) (h : WellKeyed m) :
    (rangeTimeout m).2.filter (fun i => i.call == k) = (rangeTimeout (entriesOf k m)).2 := by
  induction m with
  | nil => rfl
  | cons q m ih =>
    rcases q with ⟨key, v⟩
    have hq : v.Call = key := h (key, v) (List.mem_cons_self _ _)
    have hm : WellKeyed m := fun p hp => h p (List.mem_cons_of_mem _ hp)
    by_cases hk : key == k
    · have e : entriesOf k ((key, v) :: m) = (key, v) :: entriesOf k m := by
        simp [entriesOf, List.filter_cons, hk]
      rw [e]
      simp only [rangeTimeout]
      split
      · simp only [List.filter_cons, hq, hk, if_true]
        rw [ih hm]
      · exact ih hm
    · have e : entriesOf k ((key, v) :: m) = entriesOf k m := by
        simp [entriesOf, List.filter_cons, hk]
      rw [e]
      simp only [rangeTimeout]
      split
      · simp only [List.filter_cons, hq, hk]
        exact ih hm
      · exact ih hm

theorem wrapInt64_of_small (x : Int) (h1 : -(2 ^ 63) ≤ x) (h2 : x < 2 ^ 63) :
    wrapInt64 x = x := by
  unfold wrapInt64
  omega

/-- Effect of one sweep tick on the entries and invocations of one key. -/
theorem tick_effect (k : Token) (t : WaitTable) (h : WellKeyed t.waitPackList) :
    WellKeyed (waitPackTimeoutTick t).waitPackList ∧
    entriesOf k (waitPackTimeoutTick t).waitPackList =
      (rangeTimeout (entriesOf k t.waitPackList)).1 ∧
    invocationsOf k (waitPackTimeoutTick t) =
      invocationsOf k t ++ (rangeTimeout (entriesOf k t.waitPackList)).2 := by
  refine ⟨wellKeyed_rangeTimeout _ h, entriesOf_rangeTimeout k _, ?_⟩
  unfold waitPackTimeoutTick invocationsOf
  simp only [List.filter_append]
  rw [invoked_rangeTimeout k _ h]

/-- Registering another token does not touch the entries and invocations of `k`. -/
theorem waitPack_effect_ne (k k' : Token) (msgId : Nat) (hne : k' ≠ k) (t : WaitTable)
    (h : WellKeyed t.waitPackList) :
    WellKeyed (waitPack msgId k' t).waitPackList ∧
    entriesOf k (waitPack msgId k' t).waitPackList = entriesOf k t.waitPackList ∧
    invocationsOf k (waitPack msgId k' t) = invocationsOf k t := by
  refine ⟨?_, ?_, rfl⟩
  · intro p hp
    rcases List.mem_cons.1 hp with rfl | hp
    · rfl
    · exact wellKeyed_syncDelete k' _ h p hp
  · have hb : ¬ ((k' == k) = true) := by simpa using hne
    show entriesOf k ((k', _) :: syncDelete k' t.waitPackList) = _
    rw [← entriesOf_syncDelete_ne k k' hne t.waitPackList]
    simp [entriesOf, List.filter_cons, hne]

/-- Cancelling another token does not touch the entries and invocations of `k`. -/
theorem deleteWaitPackFunc_effect_ne (k k' : Token) (hne : k' ≠ k) (t : WaitTable)
    (h : WellKeyed t.waitPackList) :
    WellKeyed (deleteWaitPackFunc k' t).waitPackList ∧
    entriesOf k (deleteWaitPackFunc k' t).waitPackList = entriesOf k t.waitPackList ∧
    invocationsOf k (deleteWaitPackFunc k' t) = invocationsOf k t := by
  unfold deleteWaitPackFunc
  rcases hl : syncLoad k' t.waitPackList with _ | v
  · exact ⟨h, rfl, rfl⟩
  · have hv : v.Call = k' := h (k', v) (syncLoad_mem k' _ v hl)
    refine ⟨wellKeyed_syncDelete k' _ h, entriesOf_syncDelete_ne k k' hne _, ?_⟩
    simp [invocationsOf, List.filter_append, hv, hne]

/-- Cancelling a token that has no entry changes nothing. -/
theorem deleteWaitPackFunc_absent (k : Token) (t : WaitTable)
    (h : entriesOf k t.waitPackList = []) : deleteWaitPackFunc k t = t := by
  unfold deleteWaitPackFunc
  rw [syncLoad_entriesOf, h]
  rfl

/-- An operation that does not register `k` keeps `k` absent and invokes nothing on it. -/
theorem absent_step (k : Token) (op : TableOp) (hreg : op.registers k = false) (t : WaitTable)
    (h : WellKeyed t.waitPackList) (habs : entriesOf k t.waitPackList = []) :
    WellKeyed (op.apply t).waitPackList ∧ entriesOf k (op.apply t).waitPackList = [] ∧
    invocationsOf k (op.apply t) = invocationsOf k t := by
  cases op with
  | tick =>
    obtain ⟨h1, h2, h3⟩ := tick_effect k t h
    rw [habs] at h2 h3
    exact ⟨h1, h2, by simpa [rangeTimeout] using h3⟩
  | waitPack msgId call =>
    have hne : call ≠ k := by simpa [TableOp.registers] using hreg
    obtain ⟨h1, h2, h3⟩ := waitPack_effect_ne k call msgId hne t h
    exact ⟨h1, h2.trans habs, h3⟩
  | deleteWaitPackFunc call =>
    by_cases hc : call = k
    · subst hc
      show WellKeyed (deleteWaitPackFunc call t).waitPackList ∧
        entriesOf call (deleteWaitPackFunc call t).waitPackList = [] ∧
        invocationsOf call (deleteWaitPackFunc call t) = invocationsOf call t
      rw [deleteWaitPackFunc_absent call t habs]
      exact ⟨h, habs, rfl⟩
    · obtain ⟨h1, h2, h3⟩ := deleteWaitPackFunc_effect_ne k call hc t h
      exact ⟨h1, h2.trans habs, h3⟩

theorem absent_runOps (k : Token) (ops : List TableOp)
    (hops : ∀ op ∈ ops, op.registers k = false) (t : WaitTable)
    (h : WellKeyed t.waitPackList) (habs : entriesOf k t.waitPackList = []) :
    invocationsOf k (runOps ops t) = invocationsOf k t := by
  induction ops generalizing t with
  | nil => rfl
  | cons op ops ih =>
    obtain ⟨h1, h2, h3⟩ := absent_step k op (hops op (List.mem_cons_self _ _)) t h habs
    rw [runOps, ih (fun o ho => hops o (List.mem_cons_of_mem _ ho)) _ h1 h2, h3]

theorem pendingAfter_tick (msgId : Nat) (k : Token) (c0 : List Invocation) (n : Nat)
    (t : WaitTable) (h : PendingAfter msgId k c0 n t) :
    PendingAfter msgId k c0 (n + 1) (waitPackTimeoutTick t) := by
  obtain ⟨hwf, hlt, hge⟩ := h
  obtain ⟨h1, h2, h3⟩ := tick_effect k t hwf
  refine ⟨h1, ?_, ?_⟩
  · intro hn
    obtain ⟨he, hi⟩ := hlt (by omega)
    rw [he] at h2 h3
    have hw : wrapInt64 (10000 - 500 * (n : Int) - 500) = 10000 - 500 * ((n : Int) + 1) := by
      rw [wrapInt64_of_small _ (by omega) (by omega)]
      ring
    have hpos : ¬ (10000 - 500 * ((n : Int) + 1) ≤ 0) := by omega
    simp only [rangeTimeout, hw, hpos, if_false] at h2 h3
    refine ⟨?_, ?_⟩
    · rw [h2]; push_cast; rfl
    · rw [h3, hi]; simp
  · intro hn
    by_cases h19 : n = 19
    · subst h19
      obtain ⟨he, hi⟩ := hlt (by omega)
      rw [he] at h2 h3
      have hw : wrapInt64 (10000 - 500 * ((19 : Nat) : Int) - 500) = 0 := by decide
      simp only [rangeTimeout, hw, le_refl, if_true] at h2 h3
      exact ⟨h2, by rw [h3, hi]⟩
    · obtain ⟨he, hi⟩ := hge (by omega)
      rw [he] at h2 h3
      exact ⟨h2, by rw [h3, hi]; simp [rangeTimeout]⟩

theorem pendingAfter_step (msgId : Nat) (k : Token) (c0 : List Invocation) (n : Nat)
    (op : TableOp) (hreg : op.registers k = false) (hcan : op.cancels k = false)
    (t : WaitTable) (h : PendingAfter msgId k c0 n t) :
    PendingAfter msgId k c0 (n + tickCount [op]) (op.apply t) := by
  cases op with
  | tick => exact pendingAfter_tick msgId k c0 n t h
  | waitPack m call =>
    have hne : call ≠ k := by simpa [TableOp.registers] using hreg
    obtain ⟨hwf, hlt, hge⟩ := h
    obtain ⟨h1, h2, h3⟩ := waitPack_effect_ne k call m hne t hwf
    refine ⟨h1, fun hn => ?_, fun hn => ?_⟩
    · obtain ⟨he, hi⟩ := hlt hn
      exact ⟨h2.trans he, h3.trans hi⟩
    · obtain ⟨he, hi⟩ := hge hn
      exact ⟨h2.trans he, h3.trans hi⟩
  | deleteWaitPackFunc call =>
    have hne : call ≠ k := by simpa [TableOp.cancels] using hcan
    obtain ⟨hwf, hlt, hge⟩ := h
    obtain ⟨h1, h2, h3⟩ := deleteWaitPackFunc_effect_ne k call hne t hwf
    refine ⟨h1, fun hn => ?_, fun hn => ?_⟩
    · obtain ⟨he, hi⟩ := hlt hn
      exact ⟨h2.trans he, h3.trans hi⟩
    · obtain ⟨he, hi⟩ := hge hn
      exact ⟨h2.trans he, h3.trans hi⟩

theorem tickCount_cons (op : TableOp) (ops : List TableOp) :
    tickCount (op :: ops) = tickCount [op] + tickCount ops := by
  cases op <;> simp [tickCount]
  omega

theorem pendingAfter_runOps (msgId : Nat) (k : Token) (c0 : List Invocation)
    (ops : List TableOp)
    (hops : ∀ op ∈ ops, op.registers k = false ∧ op.cancels k = false)
    (n : Nat) (t : WaitTable) (h : PendingAfter msgId k c0 n t) :
    PendingAfter msgId k c0 (n + tickCount ops) (runOps ops t) := by
  induction ops generalizing n t with
  | nil => exact h
  | cons op ops ih =>
    have hop := hops op (List.mem_cons_self _ _)
    have h1 := pendingAfter_step msgId k c0 n op hop.1 hop.2 t h
    have h2 := ih (fun o ho => hops o (List.mem_cons_of_mem _ ho)) _ _ h1
    rw [tickCount_cons, ← Nat.add_assoc]
    exact h2

theorem pendingAfter_waitPack (msgId : Nat) (k : Token) (t0 : WaitTable)
    (h : WellKeyed t0.waitPackList) :
    PendingAfter msgId k (invocationsOf k t0) 0 (waitPack msgId k t0) := by
  refine ⟨?_, fun _ => ⟨?_, rfl⟩, fun hn => absurd hn (by omega)⟩
  · intro p hp
    rcases List.mem_cons.1 hp with rfl | hp
    · rfl
    · exact wellKeyed_syncDelete k _ h p hp
  · show entriesOf k ((k, _) :: syncDelete k t0.waitPackList) = _
    have := entriesOf_syncDelete_self k t0.waitPackList
    simp only [entriesOf, List.filter_cons, beq_self_eq_true, if_true] at this ⊢
    rw [this]
    simp

/-- C5. A request registered by `waitPack` (initial timeout 10000 ms) whose token is neither
registered again nor cancelled stays in the table, with `10000 - 500 * n` ms left and without
any call of its callback, after each of the first 19 sweep ticks (`n < 20` ticks so far); from
the 20th tick on it is gone from the table and its callback has been invoked exactly once
more than before the registration, with the error `callback timeout`.  Operations on other
tokens may be interleaved freely with the ticks. -/
theorem waitPack_times_out_at_tick_20 (t0 : WaitTable) (hwf : WellKeyed t0.waitPackList)
    (msgId : Nat) (k : Token) (ops : List TableOp)
    (hops : ∀ op ∈ ops, op.registers k = false ∧ op.cancels k = false) :
    (tickCount ops < 20 →
      syncLoad k (runOps ops (waitPack msgId k t0)).waitPackList =
        some ⟨msgId, 10000 - 500 * (tickCount ops : Int), k⟩ ∧
      invocationsOf k (runOps ops (waitPack msgId k t0)) = invocationsOf k t0) ∧
    (20 ≤ tickCount ops →
      syncLoad k (runOps ops (waitPack msgId k t0)).waitPackList = none ∧
      invocationsOf k (runOps ops (waitPack msgId k t0)) =
        invocationsOf k t0 ++ [⟨k, "callback timeout"⟩]) := by
  have h := pendingAfter_runOps msgId k (invocationsOf k t0) ops hops 0 _
    (pendingAfter_waitPack msgId k t0 hwf)
  rw [Nat.zero_add] at h
  obtain ⟨_, hlt, hge⟩ := h
  refine ⟨fun hn => ?_, fun hn => ?_⟩
  · obtain ⟨he, hi⟩ := hlt hn
    refine ⟨?_, hi⟩
    rw [syncLoad_entriesOf, he]
    simp [syncLoad]
  · obtain ⟨he, hi⟩ := hge hn
    refine ⟨?_, hi⟩
    rw [syncLoad_entriesOf, he]
    rfl

/-- Witness of C5: beside another pending request, the request registered for token 3 is
still pending after 19 ticks and has timed out, exactly once, after 20 and after 25 ticks. -/
theorem waitPack_times_out_at_tick_20_witness :
    (syncLoad 3 (runOps (List.replicate 19 TableOp.tick)
        (waitPack 5 3 ⟨[(7, ⟨1, 300, 7⟩)], []⟩)).waitPackList = some ⟨5, 500, 3⟩ ∧
      invocationsOf 3 (runOps (List.replicate 19 TableOp.tick)
        (waitPack 5 3 ⟨[(7, ⟨1, 300, 7⟩)], []⟩)) = []) ∧
    (syncLoad 3 (runOps (List.replicate 20 TableOp.tick)
        (waitPack 5 3 ⟨[(7, ⟨1, 300, 7⟩)], []⟩)).waitPackList = none ∧
      invocationsOf 3 (runOps (List.replicate 20 TableOp.tick)
        (waitPack 5 3 ⟨[(7, ⟨1, 300, 7⟩)], []⟩)) = [⟨3, "callback timeout"⟩]) ∧
    (syncLoad 3 (runOps (List.replicate 25 TableOp.tick)
        (waitPack 5 3 ⟨[(7, ⟨1, 300, 7⟩)], []⟩)).waitPackList = none ∧
      invocationsOf 3 (runOps (List.replicate 25 TableOp.tick)
        (waitPack 5 3 ⟨[(7, ⟨1, 300, 7⟩)], []⟩)) = [⟨3, "callback timeout"⟩]) :=
  ⟨(waitPack_times_out_at_tick_20 ⟨[(7, ⟨1, 300, 7⟩)], []⟩ (by decide) 5 3
      (List.replicate 19 TableOp.tick) (by decide)).1 (by decide),
    (waitPack_times_out_at_tick_20 ⟨[(7, ⟨1, 300, 7⟩)], []⟩ (by decide) 5 3
      (List.replicate 20 TableOp.tick) (by decide)).2 (by decide),
    (waitPack_times_out_at_tick_20 ⟨[(7, ⟨1, 300, 7⟩)], []⟩ (by decide) 5 3
      (List.replicate 25 TableOp.tick) (by decide)).2 (by decide)⟩

/-- C6. In a table whose entries are stored under their own callback pointer (as `waitPack`
stores them): when the token is present, `deleteWaitPackFunc` invokes the callback of its
entry exactly once, with the error `cancel callback`, removes the entry and leaves every
other entry as it was; afterwards no sweep tick, no further `deleteWaitPackFunc` of the token
and no operation on other tokens invokes that callback again (as long as the token is not
registered anew).  When the token is absent, `deleteWaitPackFunc` invokes nothing and leaves
the table unchanged. -/
theorem deleteWaitPackFunc_cancels_once (t : WaitTable) (hwf : WellKeyed t.waitPackList)
    (k : Token) :
    (∀ v, syncLoad k t.waitPackList = some v →
      v.Call = k ∧
      (deleteWaitPackFunc k t).invoked = t.invoked ++ [⟨v.Call, "cancel callback"⟩] ∧
      (deleteWaitPackFunc k t).waitPackList = t.waitPackList.filter (fun p => p.1 != k) ∧
      syncLoad k (deleteWaitPackFunc k t).waitPackList = none ∧
      (∀ ops : List TableOp, (∀ op ∈ ops, op.registers k = false) →
        invocationsOf k (runOps ops (deleteWaitPackFunc k t)) =
          invocationsOf k t ++ [⟨k, "cancel callback"⟩])) ∧
    (syncLoad k t.waitPackList = none → deleteWaitPackFunc k t = t) := by
  refine ⟨fun v hv => ?_, fun hn => ?_⟩
  · have hcall : v.Call = k := hwf (k, v) (syncLoad_mem k _ v hv)
    have hd : deleteWaitPackFunc k t =
        { waitPackList := syncDelete k t.waitPackList,
          invoked := t.invoked ++ [⟨v.Call, "cancel callback"⟩] } := by
      unfold deleteWaitPackFunc
      rw [hv]
    have habs : entriesOf k (deleteWaitPackFunc k t).waitPackList = [] := by
      rw [hd]
      exact entriesOf_syncDelete_self k _
    have hwf' : WellKeyed (deleteWaitPackFunc k t).waitPackList := by
      rw [hd]
      exact wellKeyed_syncDelete k _ hwf
    refine ⟨hcall, by rw [hd], by rw [hd]; rfl, ?_, ?_⟩
    · rw [syncLoad_entriesOf, habs]
      rfl
    · intro ops hops
      rw [absent_runOps k ops hops _ hwf' habs, hd, hcall]
      simp [invocationsOf, List.filter_append]
  · unfold deleteWaitPackFunc
    rw [hn]

/-- Witness of C6: cancelling token 3 beside a pending request for token 7; the later ticks
and the second cancellation invoke the callback 7 on its timeout but never 3 again. -/
theorem deleteWaitPackFunc_cancels_once_witness :
    deleteWaitPackFunc 3 ⟨[(3, ⟨5, 10000, 3⟩), (7, ⟨1, 300, 7⟩)], []⟩ =
      ⟨[(7, ⟨1, 300, 7⟩)], [⟨3, "cancel callback"⟩]⟩ ∧
    invocationsOf 3 (runOps [.tick, .deleteWaitPackFunc 3, .tick]
      (deleteWaitPackFunc 3 ⟨[(3, ⟨5, 10000, 3⟩), (7, ⟨1, 300, 7⟩)], []⟩)) =
        [⟨3, "cancel callback"⟩] ∧
    (runOps [.tick, .deleteWaitPackFunc 3, .tick]
      (deleteWaitPackFunc 3 ⟨[(3, ⟨5, 10000, 3⟩), (7, ⟨1, 300, 7⟩)], []⟩)).invoked =
        [⟨3, "cancel callback"⟩, ⟨7, "callback timeout"⟩] ∧
    deleteWaitPackFunc 4 ⟨[(3, ⟨5, 10000, 3⟩), (7, ⟨1, 300, 7⟩)], []⟩ =
      ⟨[(3, ⟨5, 10000, 3⟩), (7, ⟨1, 300, 7⟩)], []⟩ :=
  ⟨by decide,
    ((deleteWaitPackFunc_cancels_once ⟨[(3, ⟨5, 10000, 3⟩), (7, ⟨1, 300, 7⟩)], []⟩
      (by decide) 3).1 ⟨5, 10000, 3⟩ (by decide)).2.2.2.2
      [.tick, .deleteWaitPackFunc 3, .tick] (by decide),
    by decide,
    (deleteWaitPackFunc_cancels_once ⟨[(3, ⟨5, 10000, 3⟩), (7, ⟨1, 300, 7⟩)], []⟩
      (by decide) 4).2 (by decide)⟩

/-! ## Theorems: connection manager -/

/-- Counterexample to C7 as stated: on a client that is not connected, `Send` of a message
that the codec rejects returns the error of the codec, not `client not connected`. -/
theorem Send_not_connected_counterexample :
    NewDTSClient.connected = false ∧
    Send sampleEncode none NewDTSClient (none : Option (List Byte)) =
      .ok (some "encode failure", NewDTSClient) ∧
    Send sampleEncode none NewDTSClient (none : Option (List Byte)) ≠
      .ok (some "client not connected", NewDTSClient) := by
  decide

/-- C7, amended. While the client is not connected, `Send` of a message that the codec
encodes without error returns the error `client not connected`; `Send` of a message that the
codec rejects returns the error of the codec.  In both cases `Send` returns normally and
leaves the client as it was: nothing is written on a socket. -/
theorem Send_not_connected {μ : Type} (Encode : μ → Except String (List Byte))
    (writeErr : Option String) (d : Client) (msgObj : μ) (hd : d.connected = false) :
    (∀ b, Encode msgObj = .ok b →
      Send Encode writeErr d msgObj = .ok (some "client not connected", d)) ∧
    (∀ err, Encode msgObj = .error err →
      Send Encode writeErr d msgObj = .ok (some err, d)) ∧
    (∃ err, Send Encode writeErr d msgObj = .ok (some err, d)) := by
  have h1 : ∀ b, Encode msgObj = .ok b →
      Send Encode writeErr d msgObj = .ok (some "client not connected", d) := by
    intro b hb
    simp [Send, hb, hd]
  have h2 : ∀ err, Encode msgObj = .error err →
      Send Encode writeErr d msgObj = .ok (some err, d) := by
    intro err he
    simp [Send, he]
  refine ⟨h1, h2, ?_⟩
  rcases he : Encode msgObj with err | b
  · exact ⟨err, h2 err he⟩
  · exact ⟨_, h1 b he⟩

/-- Witness of the amended C7 on the client as constructed. -/
theorem Send_not_connected_witness :
    Send sampleEncode none NewDTSClient (some [0x01, 0, 0, 0, 0x09, 0xAB]) =
      .ok (some "client not connected", NewDTSClient) ∧
    (Send sampleEncode none NewDTSClient (none : Option (List Byte)) =
      .ok (some "encode failure", NewDTSClient)) :=
  ⟨(Send_not_connected sampleEncode none NewDTSClient (some [0x01, 0, 0, 0, 0x09, 0xAB])
      (by decide)).1 _ (by rfl),
    (Send_not_connected sampleEncode none NewDTSClient (none : Option (List Byte))
      (by decide)).2.1 _ (by rfl)⟩

theorem reconnectRun_append (N : Int) (xs ys : List Bool) (s : ReconnectTask) :
    reconnectRun N (xs ++ ys) s = reconnectRun N ys (reconnectRun N xs s) := by
  induction xs generalizing s with
  | nil => rfl
  | cons x xs ih => exact ih _

/-- Counterexample to C8 as stated: with `ReconnectTimes = 3` and the client never connected,
the third tick calls `Close()` after two tick-driven calls of `connect()` (the first call in
the list is the unconditional one made when the task starts), not after three. -/
theorem reconnect_attempts_counterexample :
    reconnectRun 3 [false, false] reconnectStart =
      { count := 2, calls := [.connect, .connect, .connect], stopped := false } ∧
    reconnectRun 3 [false, false, false] reconnectStart =
      { count := 3, calls := [.connect, .connect, .connect, .Close], stopped := true } ∧
    (((reconnectRun 3 [false, false, false] reconnectStart).calls.drop 1).count
      ReconnectCall.connect) ≠ 3 := by
  decide

/-- C8, amended. For every attempt limit `N > 0`, if the client is found not connected at
every tick: each of the first `N - 1` ticks increments the counter and calls `connect()`; the
`N`-th tick increments the counter to `N` and calls `Close()` instead.  So `Close()` is called
after exactly `N - 1` tick-driven calls of `connect()` (`N` calls counting the unconditional
one made when the task starts), and no later tick makes the task call `connect()` again. -/
theorem reconnect_closes_at_tick_N (N : Nat) (hN : 0 < N) (k : Nat) :
    (k < N →
      reconnectRun (N : Int) (List.replicate k false) reconnectStart =
        { count := k, calls := .connect :: List.replicate k .connect, stopped := false }) ∧
    (N ≤ k →
      reconnectRun (N : Int) (List.replicate k false) reconnectStart =
        { count := N, calls := .connect :: (List.replicate (N - 1) .connect ++ [.Close]),
          stopped := true }) := by
  induction k with
  | zero =>
    refine ⟨fun _ => ?_, fun h => absurd h (by omega)⟩
    rfl
  | succ k ih =>
    have hrun : reconnectRun (N : Int) (List.replicate (k + 1) false) reconnectStart =
        reconnectTick (N : Int) false
          (reconnectRun (N : Int) (List.replicate k false) reconnectStart) := by
      rw [List.replicate_succ', reconnectRun_append]
      rfl
    have hN0 : ¬ ((N : Int) == 0) = true := by
      simp only [beq_iff_eq]
      omega
    refine ⟨fun h => ?_, fun h => ?_⟩
    · rw [hrun, ih.1 (by omega)]
      have hlt : ((k : Int) + 1 < (N : Int)) := by omega
      simp only [reconnectTick, Bool.false_eq_true, if_false, Bool.not_false, if_true, hN0, hlt]
      rw [List.replicate_succ', List.cons_append]
      push_cast
      rfl
    · rw [hrun]
      by_cases hk : k < N
      · rw [ih.1 hk]
        have hkN : k + 1 = N := by omega
        have hlt : ¬ ((k : Int) + 1 < (N : Int)) := by omega
        simp only [reconnectTick, Bool.false_eq_true, if_false, Bool.not_false, if_true, hN0,
          hlt]
        subst hkN
        simp only [Nat.add_sub_cancel, List.cons_append]
        push_cast
        rfl
      · rw [ih.2 (by omega)]
        simp [reconnectTick]

/-- Witness of the amended C8 with `ReconnectTimes = 3`: two ticks, three ticks, five ticks. -/
theorem reconnect_closes_at_tick_N_witness :
    reconnectRun 3 [false, false] reconnectStart =
      { count := 2, calls := [.connect, .connect, .connect], stopped := false } ∧
    reconnectRun 3 [false, false, false] reconnectStart =
      { count := 3, calls := [.connect, .connect, .connect, .Close], stopped := true } ∧
    reconnectRun 3 [false, false, false, false, false] reconnectStart =
      { count := 3, calls := [.connect, .connect, .connect, .Close], stopped := true } :=
  ⟨(reconnect_closes_at_tick_N 3 (by decide) 2).1 (by decide),
    (reconnect_closes_at_tick_N 3 (by decide) 3).2 (by decide),
    (reconnect_closes_at_tick_N 3 (by decide) 5).2 (by decide)⟩

theorem flagHasReader_new : FlagHasReader NewDTSClient := by
  decide

theorem callTimeoutAction_connected (d : Client) :
    (callTimeoutAction d).connected = d.connected := by
  unfold callTimeoutAction
  split <;> rfl

/-- With the modelled `tcpHandle`, `connect` keeps the connected flag tied to a running
reader task of the current socket. -/
theorem flagHasReader_connect (dial : DialResult) (d : Client) (h : FlagHasReader d) :
    FlagHasReader (connect specTcpHandle dial d) := by
  by_cases hc : d.connected = true
  · have e : connect specTcpHandle dial d = d := by simp [connect, hc]
    rw [e]
    exact h
  · cases dial with
    | failed =>
      have e : connect specTcpHandle .failed d =
          callTimeoutAction { d with dials := d.dials + 1 } := by simp [connect, hc]
      intro hc'
      rw [e, callTimeoutAction_connected] at hc'
      exact absurd hc' hc
    | notTCP c =>
      have e : connect specTcpHandle (.notTCP c) d =
          callTimeoutAction { d with dials := d.dials + 1 } := by simp [connect, hc]
      intro hc'
      rw [e, callTimeoutAction_connected] at hc'
      exact absurd hc' hc
    | tcp c =>
      intro _
      exact ⟨c, by simp [connect, hc, clientHandleEnter, specTcpHandle],
        by simp [connect, hc, clientHandleEnter, specTcpHandle]⟩

/-- With the modelled `tcpHandle`, the end of a reader task leaves the flag cleared. -/
theorem flagHasReader_clientHandleDefer (conn : Conn) (d : Client) :
    FlagHasReader (clientHandleDefer specTcpHandle conn d) := by
  intro hc
  simp [clientHandleDefer, specTcpHandle] at hc

/-- `Send` does not touch the socket handle, the flag or the reader tasks. -/
theorem flagHasReader_Send {μ : Type} (Encode : μ → Except String (List Byte))
    (writeErr : Option String) (d d' : Client) (msgObj : μ) (err : Option String)
    (h : FlagHasReader d) (hs : Send Encode writeErr d msgObj = .ok (err, d')) :
    FlagHasReader d' := by
  unfold Send at hs
  split at hs
  · cases hs
    exact h
  · split at hs
    · cases hs
      exact h
    · split at hs
      · cases hs
      · cases hs
        exact h

/-- What a `Close()` that returns has done to the client, with the modelled `tcpHandle`. -/
theorem Close_ok_cases (caller : Caller) (d d' : Client)
    (h : Close specTcpHandle caller d = .ok d') :
    (d.sess = none ∧ d'.sess = none ∧ d'.connected = d.connected ∧
      d'.closedSocks = d.closedSocks) ∨
    (∃ sess, d.sess = some sess ∧ sess ∈ d.readers ∧ d'.sess = none ∧
      d'.connected = false ∧ d'.closedSocks = d.closedSocks ++ [sess] ++ [sess]) ∨
    (∃ sess, d.sess = some sess ∧ sess ∉ d.readers ∧ d'.sess = none ∧
      d'.connected = d.connected ∧ d'.closedSocks = d.closedSocks ++ [sess]) := by
  unfold Close at h
  split at h
  · cases h
  · split at h
    · cases h
    · split at h
      · cases h
      · split at h
        · cases h
        · rcases hs : d.sess with _ | sess
          · simp only [hs] at h
            injection h with h
            subst h
            exact Or.inl ⟨rfl, rfl, rfl, rfl⟩
          · simp only [hs] at h
            by_cases hr : sess ∈ d.readers
            · simp only [hr, if_true] at h
              injection h with h
              subst h
              exact Or.inr (Or.inl ⟨sess, rfl, hr, rfl, rfl, rfl⟩)
            · simp only [hr, if_false] at h
              injection h with h
              subst h
              exact Or.inr (Or.inr ⟨sess, rfl, hr, rfl, rfl, rfl⟩)

/-- C9. With `tcpHandle` modelled from the spec, in every client state in which the connected
flag is only set while the reader task of the current socket runs (`FlagHasReader`, which
`NewDTSClient`, `connect`, `Send` and the end of a reader task establish or keep): when
`Close()` runs to completion, the socket has been closed if one was present (and no other
socket has), the socket handle is absent and the connected flag is false.  Called by the user
with the three stop channels still open, `Close()` does run to completion. -/
theorem Close_clears_connection (caller : Caller) (d : Client) (hinv : FlagHasReader d) :
    (∀ d', Close specTcpHandle caller d = .ok d' →
      d'.sess = none ∧ d'.connected = false ∧
      (∀ sess, d.sess = some sess →
        sess ∈ d'.closedSocks ∧ ∀ c ∈ d'.closedSocks, c ∈ d.closedSocks ∨ c = sess) ∧
      (d.sess = none → d'.closedSocks = d.closedSocks)) ∧
    (caller = .user → d.reconnectTickerOverClosed = false →
      d.heartBeatTickerOverClosed = false → d.waitPackTimeoutOverClosed = false →
      ∃ d', Close specTcpHandle caller d = .ok d') := by
  refine ⟨fun d' h => ?_, fun hc h1 h2 h3 => ?_⟩
  · rcases Close_ok_cases caller d d' h with
      ⟨hs, hs', hf, hcl⟩ | ⟨sess, hs, hr, hs', hf, hcl⟩ | ⟨sess, hs, hr, hs', hf, hcl⟩
    · refine ⟨hs', ?_, ?_, fun _ => hcl⟩
      · rw [hf]
        by_contra hne
        obtain ⟨c, _, hc⟩ := hinv (by simpa using hne)
        rw [hs] at hc
        cases hc
      · intro sess hsome
        rw [hs] at hsome
        cases hsome
    · refine ⟨hs', hf, ?_, ?_⟩
      · intro s hsome
        rw [hs] at hsome
        cases hsome
        rw [hcl]
        refine ⟨by simp, ?_⟩
        intro c hc
        simp only [List.mem_append, List.mem_singleton] at hc
        tauto
      · intro hnone
        rw [hs] at hnone
        cases hnone
    · refine ⟨hs', ?_, ?_, ?_⟩
      · rw [hf]
        by_contra hne
        obtain ⟨c, hc1, hc2⟩ := hinv (by simpa using hne)
        rw [hs] at hc2
        cases hc2
        exact hr hc1
      · intro s hsome
        rw [hs] at hsome
        cases hsome
        rw [hcl]
        refine ⟨by simp, ?_⟩
        intro c hc
        simp only [List.mem_append, List.mem_singleton] at hc
        exact hc
      · intro hnone
        rw [hs] at hnone
        cases hnone
  · unfold Close
    simp only [h1, h2, h3, hc]
    simp only [Bool.false_eq_true, if_false, reduceCtorEq]
    rcases d.sess with _ | sess
    · exact ⟨_, rfl⟩
    · simp only
      split <;> exact ⟨_, rfl⟩

/-- Witness of C9: the client after a successful `connect`, closed by the user; and the
client as constructed, which has no socket. -/
theorem Close_clears_connection_witness :
    (connect specTcpHandle (.tcp 1) NewDTSClient).connected = true ∧
    (∃ d', Close specTcpHandle .user (connect specTcpHandle (.tcp 1) NewDTSClient) = .ok d' ∧
      d'.sess = none ∧ d'.connected = false ∧ 1 ∈ d'.closedSocks) ∧
    (∃ d', Close specTcpHandle .user NewDTSClient = .ok d' ∧
      d'.sess = none ∧ d'.connected = false ∧ d'.closedSocks = []) := by
  have h1 := Close_clears_connection .user (connect specTcpHandle (.tcp 1) NewDTSClient)
    (by decide)
  have h2 := Close_clears_connection .user NewDTSClient (by decide)
  obtain ⟨d1, e1⟩ := h1.2 rfl (by decide) (by decide) (by decide)
  obtain ⟨d2, e2⟩ := h2.2 rfl (by decide) (by decide) (by decide)
  have r1 := h1.1 d1 e1
  have r2 := h2.1 d2 e2
  exact ⟨by decide, ⟨d1, e1, r1.1, r1.2.1, (r1.2.2.1 1 (by decide)).1⟩,
    ⟨d2, e2, r2.1, r2.2.1, r2.2.2.2 (by decide)⟩⟩

/-- C10. With `tcpHandle` modelled from the spec: on a client that is not connected, when the
dial succeeds (with a TCP connection), `connect()` dials once, stores the new socket as the
socket handle and starts the reader task of that socket, whose Connected event sets the
connected flag to true; nothing else changes.  On a client that is already connected,
`connect()` changes nothing and does not dial. -/
theorem connect_stores_socket_and_sets_flag (d : Client) (dial : DialResult) :
    (d.connected = false → ∀ tcpConn, dial = .tcp tcpConn →
      connect specTcpHandle dial d =
        { d with sess := some tcpConn, connected := true, dials := d.dials + 1,
                 readers := d.readers ++ [tcpConn] } ∧
      (connect specTcpHandle dial d).sess = some tcpConn ∧
      (connect specTcpHandle dial d).connected = true) ∧
    (d.connected = true →
      connect specTcpHandle dial d = d ∧ (connect specTcpHandle dial d).dials = d.dials) := by
  refine ⟨fun hd tcpConn hdial => ?_, fun hd => ?_⟩
  · subst hdial
    refine ⟨?_, ?_, ?_⟩ <;> simp [connect, clientHandleEnter, specTcpHandle, hd]
  · simp [connect, hd]

/-- Witness of C10: a successful dial on the client as constructed, and a call on the client
that this has connected. -/
theorem connect_stores_socket_and_sets_flag_witness :
    (connect specTcpHandle (.tcp 1) NewDTSClient =
        { NewDTSClient with sess := some 1, connected := true, dials := 1, readers := [1] } ∧
      (connect specTcpHandle (.tcp 1) NewDTSClient).sess = some 1 ∧
      (connect specTcpHandle (.tcp 1) NewDTSClient).connected = true) ∧
    connect specTcpHandle (.tcp 2) (connect specTcpHandle (.tcp 1) NewDTSClient) =
      connect specTcpHandle (.tcp 1) NewDTSClient :=
  ⟨(connect_stores_socket_and_sets_flag NewDTSClient (.tcp 1)).1 (by decide) 1 rfl,
    ((connect_stores_socket_and_sets_flag (connect specTcpHandle (.tcp 1) NewDTSClient)
      (.tcp 2)).2 (by decide)).1⟩

end DTSSDK
